import Mathlib

/-!
Verification of the change-detection and transfer-reconciliation engine of
`ftp_sync.py` (class `FolderWatcher`): fingerprinting (`get_file_hash`),
ignore rules (`should_ignore`), the detection scan (`scan_folder`), remote
directory provisioning (`create_remote_dirs`), per-file upload with its
fallback (`upload_file`), and the orchestrating run (`sync_changes`).

Embedding conventions:
* Python `str` values are Lean `String`s; every string operation the source
  uses (`replace('\\','/')`, `split('/')`, `startswith('*')`, slicing
  `[1:]`, `endswith`, substring `in`, `str(int)`) is implemented over
  `String.data` by structurally recursive list functions, so that every
  definition evaluates inside the kernel.
* File contents are byte lists (`List Nat`); `os.path.getsize` is the
  content length.  The MD5 digest is a fixed deterministic function of the
  byte stream fed to the hasher, so the model takes the fingerprint to be
  that exact byte stream itself (a collision-free abstraction of the
  digest); two fingerprints are equal in the model iff the hasher inputs
  are equal.
* POSIX path semantics: `os.walk` enumerates a directory tree, the path
  separator produced by `os.path.join` / `os.path.relpath` is `'/'`.
  Filesystem names are arbitrary strings; realizable file and directory
  names never contain `'/'`.
* The FTP connection is an oracle deciding, from the history of commands
  issued so far (the server state), whether each `cwd`/`mkd`/`STOR`
  command succeeds; a `False` verdict models the call raising an
  exception.  Local file readability is a boolean per file (whether
  `open(...,'rb')` / reading succeeds).
-/

/-- Python `s.replace(a, b)` for single-character `a`, `b`: charwise map. -/
def replaceChar (a b : Char) (s : String) : String :=
  ⟨s.data.map (fun c => if c = a then b else c)⟩

/-- Python `str.split(sep)` for a single-character separator, on char
lists: `"".split('/') = [""]`, `"a/b".split('/') = ["a","b"]`. -/
def splitChar (sep : Char) : List Char → List (List Char)
  | [] => [[]]
  | c :: cs =>
    let r := splitChar sep cs
    if c = sep then [] :: r
    else
      match r with
      | [] => [[c]]
      | h :: t => (c :: h) :: t

/-- Python `s.split(sep)` (single-character separator), as strings. -/
def splitStr (sep : Char) (s : String) : List String :=
  (splitChar sep s.data).map (fun l => ⟨l⟩)

/-- Does `l` start with `pat` (Python `str.startswith`)? -/
def startsWithChars : List Char → List Char → Bool
  | [], _ => true
  | _ :: _, [] => false
  | p :: ps, c :: cs => p = c && startsWithChars ps cs

/-- Does `l` contain `pat` as a contiguous substring (Python `pat in l`)? -/
def containsSub (pat : List Char) : List Char → Bool
  | [] => pat.isEmpty
  | c :: cs => startsWithChars pat (c :: cs) || containsSub pat cs

/-- Does `l` end with `suf` (Python `str.endswith`)? -/
def endsWithChars (suf l : List Char) : Bool :=
  l.drop (l.length - suf.length) == suf

/-- Decimal digits of a `Nat`, as the bytes Python's `str(n).encode()`
produces (model of hashing the decimal size / timestamp text). -/
def decimalBytes (n : Nat) : List Nat :=
  (Nat.repr n).data.map Char.toNat

/-- A local file as the scan observes it: its byte content, its
modification timestamp, and whether opening/reading it succeeds
(`readOk = false` models `OSError` during `get_file_hash`). -/
structure FileData where
  content : List Nat
  mtime : Nat
  readOk : Bool
deriving DecidableEq

/-- The byte stream `FolderWatcher.get_file_hash` feeds to the MD5 hasher:
first 1 MiB of content, then — only when the size exceeds 2 MiB — the
last 1 MiB, then the decimal file size, then the decimal mtime.  The
model's fingerprint is this stream itself (see header). -/
def get_file_hash_input (content : List Nat) (mtime : Nat) : List Nat :=
  let file_size := content.length
  content.take (1024 * 1024) ++
    (if 2 * 1024 * 1024 < file_size then
        content.drop (file_size - 1024 * 1024)
      else []) ++
    decimalBytes file_size ++ decimalBytes mtime

/-- `FolderWatcher.get_file_hash`: `none` models the call raising
(permission error, file vanished, ...). -/
def get_file_hash (fd : FileData) : Option (List Nat) :=
  if fd.readOk then some (get_file_hash_input fd.content fd.mtime) else none

/-- The hard-coded `FolderWatcher.ignore_patterns` list. -/
def ignore_patterns : List String :=
  [".git", ".svn", "node_modules", ".DS_Store", "Thumbs.db",
   "__pycache__", ".idea", ".vscode",
   "*.pyc", "*.pyo", ".pytest_cache"]

/-- The pattern-matching half of `FolderWatcher.should_ignore`: split the
backslash-normalized path on `'/'`; a `*`-pattern matches when some part
ends with the pattern minus the star, any other pattern matches when it is
a substring of some part. -/
def patternHit (patterns : List String) (filepath : String) : Bool :=
  let parts := splitChar '/' (replaceChar '\\' '/' filepath).data
  patterns.any fun pat =>
    parts.any fun part =>
      if startsWithChars ['*'] pat.data then
        endsWithChars (pat.data.drop 1) part
      else
        containsSub pat.data part

/-- `FolderWatcher.should_ignore`.  `sizeQ` is the outcome of
`os.path.getsize(os.path.join(watch_folder, filepath))`: `some s` when the
stat succeeds, `none` when it raises (swallowed by the bare `except`). -/
def should_ignore (patterns : List String) (filepath : String)
    (sizeQ : Option Nat) : Bool :=
  patternHit patterns filepath ||
    (match sizeQ with
     | some size => decide (100 * 1024 * 1024 < size)
     | none => false)

mutual
/-- A directory tree as `os.walk` observes it: named files with data, and
named subdirectories in listing order (see `FSForest`). -/
inductive FSTree : Type where
  | node : List (String × FileData) → FSForest → FSTree

/-- The subdirectory listing of a directory: name/subtree pairs in
listing order. -/
inductive FSForest : Type where
  | nil : FSForest
  | cons : String → FSTree → FSForest → FSForest
end

/-- Join relative-path segments with `'/'` (what `os.path.relpath`
returns on POSIX for a file under the watched root). -/
def joinSegs : List (List Char) → List Char
  | [] => []
  | [s] => s
  | s :: rest => s ++ '/' :: joinSegs rest

/-- Render a segment-list relative path as the string the source uses. -/
def renderPath (p : List String) : String :=
  ⟨joinSegs (p.map String.data)⟩

mutual
/-- The `os.walk` enumeration of `scan_folder`, with the source's pruning:
at every directory, subdirectories `d` with `should_ignore(d)` true are
removed before descending (`dirs[:] = [d for d in dirs if not
self.should_ignore(d)]`; for the bare name `d` the size stat inside
`should_ignore` either raises — the joined path does not exist below the
first level — or returns a directory inode size far under the ceiling, so
it is modeled as unavailable).  Files are listed before subtrees, exactly
as the source's loop body visits them; each file is paired with its
relative path from the watched root. -/
def walkFiles (patterns : List String) (pre : List String) :
    FSTree → List (List String × FileData)
  | .node files dirs =>
    files.map (fun f => (pre ++ [f.1], f.2)) ++ walkForest patterns pre dirs

/-- Walk of the remaining (unpruned) subdirectories, in order. -/
def walkForest (patterns : List String) (pre : List String) :
    FSForest → List (List String × FileData)
  | .nil => []
  | .cons name sub rest =>
    (if should_ignore patterns name none then []
     else walkFiles patterns (pre ++ [name]) sub) ++
      walkForest patterns pre rest
end

/-- Association-list lookup (Python `dict` access / `in`). -/
def lookupA {α β : Type} [DecidableEq α] : List (α × β) → α → Option β
  | [], _ => none
  | (k', v) :: rest, k => if k' = k then some v else lookupA rest k

/-- Python `dict` assignment `m[k] = v`: update in place if the key
exists, otherwise append. -/
def dinsert {α β : Type} [DecidableEq α] : List (α × β) → α → β → List (α × β)
  | [], k, v => [(k, v)]
  | (k', v') :: rest, k, v =>
    if k' = k then (k', v) :: rest else (k', v') :: dinsert rest k v

/-- The per-file events of the `scan_folder` loop, in walk order: a file
is skipped when `should_ignore(relative_path)` is true (here the size stat
succeeds and returns the content length) or when `get_file_hash` raises;
otherwise it contributes its path and freshly computed fingerprint. -/
def scan_events (patterns : List String) :
    List (List String × FileData) → List (List String × List Nat)
  | [] => []
  | (p, fd) :: rest =>
    if should_ignore patterns (renderPath p) (some fd.content.length) then
      scan_events patterns rest
    else
      match get_file_hash fd with
      | some h => (p, h) :: scan_events patterns rest
      | none => scan_events patterns rest

/-- The `current_files` dict built by `scan_folder`. -/
def scan_current (patterns : List String) (t : FSTree) :
    List (List String × List Nat) :=
  (scan_events patterns (walkFiles patterns [] t)).foldl
    (fun m e => dinsert m e.1 e.2) []

/-- `changes['new']` of `scan_folder`: scanned files whose relative path
is absent from the prior `file_hashes`. -/
def scan_new (patterns : List String) (prior : List (List String × List Nat))
    (t : FSTree) : List (List String) :=
  ((scan_events patterns (walkFiles patterns [] t)).filter
      (fun e => (lookupA prior e.1).isNone)).map Prod.fst

/-- `changes['modified']` of `scan_folder`: scanned files present in the
prior `file_hashes` under a different fingerprint. -/
def scan_modified (patterns : List String)
    (prior : List (List String × List Nat)) (t : FSTree) :
    List (List String) :=
  ((scan_events patterns (walkFiles patterns [] t)).filter
      (fun e =>
        match lookupA prior e.1 with
        | some h => decide (h ≠ e.2)
        | none => false)).map Prod.fst

/-- One FTP control command the source can issue: change directory, make
directory, or `STOR` a file under a name (relative to the server's current
directory). -/
inductive FtpCmd : Type where
  | cwd (d : String)
  | mkd (d : String)
  | stor (name : String)
deriving DecidableEq

/-- The server oracle: given the history of commands issued so far on this
connection (which determines the server state) and the next command,
decide whether it succeeds; `false` models the `ftplib` call raising. -/
def FtpOracle : Type := List FtpCmd → FtpCmd → Bool

/-- Issue one command: it is appended to the history and the oracle rules
on it. -/
def runCmd (oracle : FtpOracle) (hist : List FtpCmd) (c : FtpCmd) :
    List FtpCmd × Bool :=
  (hist ++ [c], oracle hist c)

/-- The directory the source returns to before storing: the configured
remote base path if non-empty (Python truthiness), else `'/'`. -/
def baseDirName (basePath : String) : String :=
  if basePath = "" then "/" else basePath

/-- The nonempty `'/'`-separated pieces of a remote path
(`[d for d in remote_path.split('/') if d]`). -/
def pathPieces (remotePath : String) : List String :=
  (splitStr '/' remotePath).filter (fun d => d ≠ "")

/-- The bare filename `upload_file`'s fallback stores under:
`dirs[-1] if dirs else remote_file`. -/
def bare_filename (remote_file : String) : String :=
  (pathPieces remote_file).getLast?.getD remote_file

/-- The `for dir in dirs` loop of `create_remote_dirs`: `cwd` into each
segment; on failure try `mkd` then `cwd`, swallowing every error
(`except: pass`) and continuing with the next segment. -/
def crdLoop (oracle : FtpOracle) : List FtpCmd → List String → List FtpCmd
  | h, [] => h
  | h, d :: ds =>
    let r1 := runCmd oracle h (.cwd d)
    if r1.2 then crdLoop oracle r1.1 ds
    else
      let r2 := runCmd oracle r1.1 (.mkd d)
      if r2.2 then
        let r3 := runCmd oracle r2.1 (.cwd d)
        crdLoop oracle r3.1 ds
      else crdLoop oracle r2.1 ds

/-- `FolderWatcher.create_remote_dirs`: drop the final segment, `cwd` to
the base directory (this call is *not* guarded — a `false` verdict makes
the whole function raise, modeled by the `false` flag), then best-effort
provision each directory segment. -/
def create_remote_dirs (oracle : FtpOracle) (basePath : String)
    (hist : List FtpCmd) (remote_path : String) : List FtpCmd × Bool :=
  let dirs := (pathPieces remote_path).dropLast
  let r1 := runCmd oracle hist (.cwd (baseDirName basePath))
  if r1.2 then (crdLoop oracle r1.1 dirs, true) else (r1.1, false)

/-- The primary attempt of `upload_file`: normalize backslashes, provision
directories, return to the base directory, open the local file, `STOR` at
the full relative path.  The flag is `true` iff every step succeeded; on
`false` the first failing step was the last event recorded. -/
def upload_primary (oracle : FtpOracle) (basePath : String)
    (localReadOk : Bool) (hist : List FtpCmd) (remote_file0 : String) :
    List FtpCmd × Bool :=
  let rf := replaceChar '\\' '/' remote_file0
  let r1 := create_remote_dirs oracle basePath hist rf
  if !r1.2 then (r1.1, false)
  else
    let r2 := runCmd oracle r1.1 (.cwd (baseDirName basePath))
    if !r2.2 then (r2.1, false)
    else if !localReadOk then (r2.1, false)
    else runCmd oracle r2.1 (.stor rf)

/-- The fallback's re-provisioning loop (`try: cwd except: mkd; cwd`):
unlike `crdLoop`, a failing `mkd` or a failing second `cwd` raises out of
the loop (flag `false`). -/
def fb_provision (oracle : FtpOracle) :
    List FtpCmd → List String → List FtpCmd × Bool
  | h, [] => (h, true)
  | h, d :: ds =>
    let r1 := runCmd oracle h (.cwd d)
    if r1.2 then fb_provision oracle r1.1 ds
    else
      let r2 := runCmd oracle r1.1 (.mkd d)
      if !r2.2 then (r2.1, false)
      else
        let r3 := runCmd oracle r2.1 (.cwd d)
        if r3.2 then fb_provision oracle r3.1 ds else (r3.1, false)

/-- The `except` branch of `upload_file`: re-derive the segments from the
remote path, return to base, re-provision them, and store the file under
its bare filename in the then-current directory; any failure yields
`false` (the inner bare `except: return False`). -/
def upload_fallback (oracle : FtpOracle) (basePath : String)
    (localReadOk : Bool) (hist : List FtpCmd) (remote_file0 : String) :
    List FtpCmd × Bool :=
  let rf := replaceChar '\\' '/' remote_file0
  let dirs0 := pathPieces rf
  let filename := bare_filename rf
  let fdirs := if 1 < dirs0.length then dirs0.dropLast else []
  let r1 := runCmd oracle hist (.cwd (baseDirName basePath))
  if !r1.2 then (r1.1, false)
  else
    let r2 := fb_provision oracle r1.1 fdirs
    if !r2.2 then (r2.1, false)
    else if !localReadOk then (r2.1, false)
    else runCmd oracle r2.1 (.stor filename)

/-- `FolderWatcher.upload_file`: the primary attempt, and on any failure
exactly one fallback attempt; total — it never raises. -/
def upload_file (oracle : FtpOracle) (basePath : String)
    (localReadOk : Bool) (hist : List FtpCmd) (remote_file0 : String) :
    List FtpCmd × Bool :=
  let r1 := upload_primary oracle basePath localReadOk hist remote_file0
  if r1.2 then (r1.1, true)
  else upload_fallback oracle basePath localReadOk r1.1 remote_file0

/-- The names stored by the `STOR` commands of a history, in order. -/
def storsOf (hist : List FtpCmd) : List String :=
  hist.filterMap fun c =>
    match c with
    | .stor n => some n
    | _ => none

/-- Outcome of one `sync_changes` run. `results` records, in upload order,
each attempted relative path with its `upload_file` verdict; `success`,
`failed_files` and `claimed_full` mirror the source's counters and the
`success == total` all-uploaded message; `file_hashes` is the persisted
fingerprint map after the run; `ran` tells whether the upload loop was
reached; `trace` is the final FTP command history. -/
structure SyncResult where
  success : Nat
  failed_files : List (List String)
  results : List (List String × Bool)
  file_hashes : List (List String × List Nat)
  claimed_full : Bool
  ran : Bool
  trace : List FtpCmd
deriving DecidableEq

/-- The base-positioning step of `sync_changes` before the upload loop:
`try cwd(remote_path) except: create_remote_dirs(remote_path + '/dummy');
cwd(remote_path)`.  A `false` flag models an exception escaping to the
run's outer `except` (sync aborted, nothing uploaded, nothing saved). -/
def sync_base_setup (oracle : FtpOracle) (basePath : String)
    (hist : List FtpCmd) : List FtpCmd × Bool :=
  if basePath = "" then (hist, true)
  else
    let r1 := runCmd oracle hist (.cwd basePath)
    if r1.2 then (r1.1, true)
    else
      let r2 := create_remote_dirs oracle basePath r1.1 (basePath ++ "/dummy")
      if r2.2 then runCmd oracle r2.1 (.cwd basePath) else (r2.1, false)

/-- The upload loop of `sync_changes` over `all_files`, threading the FTP
history: returns the final history, the `success` counter, the
`failed_files` list and the per-file results, the latter two in iteration
order. -/
def sync_loop (oracle : FtpOracle) (basePath : String)
    (readAt : List String → Bool) :
    List (List String) → List FtpCmd →
      List FtpCmd × Nat × List (List String) × List (List String × Bool)
  | [], h => (h, 0, [], [])
  | f :: fs, h =>
    let r := upload_file oracle basePath (readAt f) h (renderPath f)
    let rest := sync_loop oracle basePath readAt fs r.1
    if r.2 then (rest.1, rest.2.1 + 1, rest.2.2.1, (f, true) :: rest.2.2.2)
    else (rest.1, rest.2.1, f :: rest.2.2.1, (f, false) :: rest.2.2.2)

/-- `FolderWatcher.sync_changes` (the spec's `applySync`): scan `t1` for
changes against `prior`; return untouched when there are no changes, the
user declines (`confirm`), or `connect_ftp` fails (`connectOk`); otherwise
position at the remote base, upload `changes['new'] + changes['modified']`
in order over the single connection, and — only when at least one upload
succeeded — re-scan (`t2` is the tree at commit time) and persist that
entire fresh fingerprint map. -/
def sync_changes (patterns : List String) (oracle : FtpOracle)
    (basePath : String) (prior : List (List String × List Nat))
    (t1 t2 : FSTree) (readAt : List String → Bool)
    (confirm connectOk : Bool) : SyncResult :=
  let newL := scan_new patterns prior t1
  let modL := scan_modified patterns prior t1
  if newL.isEmpty && modL.isEmpty then ⟨0, [], [], prior, false, false, []⟩
  else if !confirm then ⟨0, [], [], prior, false, false, []⟩
  else if !connectOk then ⟨0, [], [], prior, false, false, []⟩
  else
    let rb := sync_base_setup oracle basePath []
    if !rb.2 then ⟨0, [], [], prior, false, false, rb.1⟩
    else
      let total := newL.length + modL.length
      let all_files := newL ++ modL
      let r := sync_loop oracle basePath readAt all_files rb.1
      ⟨r.2.1, r.2.2.1, r.2.2.2,
        if 0 < r.2.1 then scan_current patterns t2 else prior,
        r.2.1 == total, true, r.1⟩

/-! ### Helper lemmas: string primitives -/

theorem startsWithChars_iff (p : List Char) :
    ∀ l, startsWithChars p l = true ↔ ∃ t, l = p ++ t := by
  induction p with
  | nil =>
    intro l
    simp [startsWithChars]
  | cons a ps ih =>
    intro l
    cases l with
    | nil => simp [startsWithChars]
    | cons c cs =>
      simp only [startsWithChars, Bool.and_eq_true, decide_eq_true_eq, ih,
        List.cons_append, List.cons.injEq]
      constructor
      · rintro ⟨rfl, t, rfl⟩
        exact ⟨t, rfl, rfl⟩
      · rintro ⟨t, rfl, rfl⟩
        exact ⟨rfl, t, rfl⟩

theorem containsSub_iff (pat : List Char) :
    ∀ l, containsSub pat l = true ↔ ∃ s t, l = s ++ pat ++ t := by
  intro l
  induction l with
  | nil =>
    simp only [containsSub, List.isEmpty_iff]
    constructor
    · rintro rfl
      exact ⟨[], [], rfl⟩
    · rintro ⟨s, t, h⟩
      rcases List.append_eq_nil.mp h.symm with ⟨h1, h2⟩
      rcases List.append_eq_nil.mp h1 with ⟨-, h3⟩
      exact h3
  | cons c cs ih =>
    simp only [containsSub, Bool.or_eq_true, ih, startsWithChars_iff]
    constructor
    · rintro (⟨t, ht⟩ | ⟨s, t, ht⟩)
      · exact ⟨[], t, by simpa using ht⟩
      · exact ⟨c :: s, t, by simp [ht]⟩
    · rintro ⟨s, t, ht⟩
      cases s with
      | nil => exact Or.inl ⟨t, by simpa using ht⟩
      | cons x xs =>
        simp only [List.cons_append, List.cons.injEq] at ht
        exact Or.inr ⟨xs, t, ht.2⟩

theorem endsWithChars_iff (suf l : List Char) :
    endsWithChars suf l = true ↔ ∃ s, l = s ++ suf := by
  simp only [endsWithChars, beq_iff_eq]
  constructor
  · intro h
    refine ⟨l.take (l.length - suf.length), ?_⟩
    conv_lhs => rw [← List.take_append_drop (l.length - suf.length) l, h]
  · rintro ⟨s, rfl⟩
    have hlen : (s ++ suf).length - suf.length = s.length := by
      simp
    rw [hlen, List.drop_left]

theorem mem_joinSegs {c : Char} :
    ∀ ls : List (List Char), c ∈ joinSegs ls → c = '/' ∨ ∃ l ∈ ls, c ∈ l := by
  intro ls
  induction ls with
  | nil => simp [joinSegs]
  | cons s rest ih =>
    cases rest with
    | nil =>
      intro h
      simp only [joinSegs] at h
      exact Or.inr ⟨s, by simp, h⟩
    | cons a t =>
      simp only [joinSegs, List.mem_append, List.mem_cons]
      rintro (h | h | h)
      · exact Or.inr ⟨s, by simp, h⟩
      · exact Or.inl h
      · rcases ih h with h' | ⟨l, hl, hc⟩
        · exact Or.inl h'
        · exact Or.inr ⟨l, by simp [List.mem_cons] at hl ⊢; tauto, hc⟩

/-! ### Helper lemmas: association lists (`dict` model) -/

theorem lookupA_dinsert_self {α β : Type} [DecidableEq α]
    (m : List (α × β)) (k : α) (v : β) :
    lookupA (dinsert m k v) k = some v := by
  induction m with
  | nil => simp [dinsert, lookupA]
  | cons e rest ih =>
    rcases e with ⟨a, b⟩
    by_cases h : a = k
    · subst h
      simp [dinsert, lookupA]
    · simp [dinsert, h, lookupA, ih]

theorem lookupA_dinsert_ne {α β : Type} [DecidableEq α]
    (m : List (α × β)) (k k' : α) (v : β) (hne : k' ≠ k) :
    lookupA (dinsert m k v) k' = lookupA m k' := by
  induction m with
  | nil => simp [dinsert, lookupA, Ne.symm hne]
  | cons e rest ih =>
    rcases e with ⟨a, b⟩
    by_cases h : a = k
    · subst h
      simp [dinsert, lookupA, Ne.symm hne]
    · simp [dinsert, h, lookupA, ih]

theorem lookupA_foldl_dinsert_not_mem {α β : Type} [DecidableEq α]
    (evs : List (α × β)) (k : α) (hk : k ∉ evs.map Prod.fst) :
    ∀ m, lookupA (evs.foldl (fun m e => dinsert m e.1 e.2) m) k = lookupA m k := by
  induction evs with
  | nil => intro m; rfl
  | cons e rest ih =>
    intro m
    simp only [List.map_cons, List.mem_cons] at hk
    push_neg at hk
    rw [List.foldl_cons, ih hk.2, lookupA_dinsert_ne _ _ _ _ hk.1]

theorem lookupA_foldl_dinsert_mem {α β : Type} [DecidableEq α]
    (evs : List (α × β)) (k : α) (v : β)
    (hnd : (evs.map Prod.fst).Nodup) (hmem : (k, v) ∈ evs) :
    ∀ m, lookupA (evs.foldl (fun m e => dinsert m e.1 e.2) m) k = some v := by
  induction evs with
  | nil => simp at hmem
  | cons e rest ih =>
    intro m
    simp only [List.map_cons, List.nodup_cons] at hnd
    rcases List.mem_cons.mp hmem with h | h
    · subst h
      rw [List.foldl_cons,
        lookupA_foldl_dinsert_not_mem rest k hnd.1,
        lookupA_dinsert_self]
    · exact ih hnd.2 h _

/-! ### Helper lemmas: the detection scan -/

theorem scan_events_cons (pats : List String) (p : List String)
    (fd : FileData) (rest : List (List String × FileData)) :
    scan_events pats ((p, fd) :: rest) =
      if should_ignore pats (renderPath p) (some fd.content.length) then
        scan_events pats rest
      else
        match get_file_hash fd with
        | some h => (p, h) :: scan_events pats rest
        | none => scan_events pats rest := rfl

theorem scan_events_fst_sublist (pats : List String) :
    ∀ L : List (List String × FileData),
      ((scan_events pats L).map Prod.fst).Sublist (L.map Prod.fst) := by
  intro L
  induction L with
  | nil => simp [scan_events]
  | cons e rest ih =>
    rcases e with ⟨p, fd⟩
    rw [scan_events_cons]
    by_cases hig : should_ignore pats (renderPath p) (some fd.content.length)
    · simpa [hig] using ih.cons p
    · cases hr : fd.readOk
      · simpa [hig, get_file_hash, hr] using ih.cons p
      · simpa [hig, get_file_hash, hr] using ih.cons₂ p

theorem mem_scan_events_elim (pats : List String) :
    ∀ (L : List (List String × FileData)) (p : List String) (h : List Nat),
      (p, h) ∈ scan_events pats L →
      ∃ fd, (p, fd) ∈ L ∧
        should_ignore pats (renderPath p) (some fd.content.length) = false ∧
        get_file_hash fd = some h := by
  intro L
  induction L with
  | nil => simp [scan_events]
  | cons e rest ih =>
    rcases e with ⟨q, fd⟩
    intro p h hmem
    rw [scan_events_cons] at hmem
    by_cases hig : should_ignore pats (renderPath q) (some fd.content.length)
    · rw [if_pos hig] at hmem
      rcases ih p h hmem with ⟨fd', h1, h2, h3⟩
      exact ⟨fd', List.mem_cons_of_mem _ h1, h2, h3⟩
    · rw [if_neg hig] at hmem
      cases hr : fd.readOk with
      | false =>
        simp only [get_file_hash, hr, if_neg] at hmem
        rcases ih p h hmem with ⟨fd', h1, h2, h3⟩
        exact ⟨fd', List.mem_cons_of_mem _ h1, h2, h3⟩
      | true =>
        simp only [get_file_hash, hr, if_pos] at hmem
        rcases List.mem_cons.mp hmem with heq | hmem'
        · rcases Prod.mk.injEq .. ▸ heq with ⟨rfl, rfl⟩
          exact ⟨fd, List.mem_cons_self _ _,
            by simpa using hig, by simp [get_file_hash, hr]⟩
        · rcases ih p h hmem' with ⟨fd', h1, h2, h3⟩
          exact ⟨fd', List.mem_cons_of_mem _ h1, h2, h3⟩

theorem mem_scan_events_intro (pats : List String) :
    ∀ (L : List (List String × FileData)) (p : List String) (fd : FileData),
      (p, fd) ∈ L →
      should_ignore pats (renderPath p) (some fd.content.length) = false →
      fd.readOk = true →
      (p, get_file_hash_input fd.content fd.mtime) ∈ scan_events pats L := by
  intro L
  induction L with
  | nil => simp
  | cons e rest ih =>
    rcases e with ⟨q, fd'⟩
    intro p fd hmem hig hr
    rw [scan_events_cons]
    rcases List.mem_cons.mp hmem with heq | hmem'
    · rcases Prod.mk.injEq .. ▸ heq with ⟨rfl, rfl⟩
      simp [hig, get_file_hash, hr]
    · have hrec := ih p fd hmem' hig hr
      by_cases hig' : should_ignore pats (renderPath q) (some fd'.content.length)
      · simpa [hig'] using hrec
      · cases hr' : fd'.readOk
        · simpa [hig', get_file_hash, hr'] using hrec
        · simp only [if_neg hig', get_file_hash, hr', if_pos]
          exact List.mem_cons_of_mem _ hrec

theorem scan_events_mem_iff_of_nodup (pats : List String) :
    ∀ (L : List (List String × FileData)) (p : List String) (fd : FileData),
      (L.map Prod.fst).Nodup → (p, fd) ∈ L →
      ∀ h, ((p, h) ∈ scan_events pats L ↔
        (should_ignore pats (renderPath p) (some fd.content.length) = false ∧
          get_file_hash fd = some h)) := by
  intro L
  induction L with
  | nil => simp
  | cons e rest ih =>
    rcases e with ⟨q, fd'⟩
    intro p fd hnd hmem h
    simp only [List.map_cons, List.nodup_cons] at hnd
    rcases List.mem_cons.mp hmem with heq | hmem'
    · rcases Prod.mk.injEq .. ▸ heq with ⟨rfl, rfl⟩
      have hnotin : ∀ h', (p, h') ∉ scan_events pats rest := by
        intro h' hc
        rcases mem_scan_events_elim pats rest p h' hc with ⟨fd'', h1, -, -⟩
        exact hnd.1 (List.mem_map_of_mem Prod.fst h1)
      rw [scan_events_cons]
      by_cases hig : should_ignore pats (renderPath p) (some fd.content.length)
      · simp only [if_pos hig, hig]
        simp only [Bool.true_eq_false, false_and, iff_false]
        exact hnotin h
      · rw [if_neg hig]
        cases hr : fd.readOk with
        | false =>
          simp only [get_file_hash, hr, if_neg]
          simp only [hig, true_and, Bool.false_eq_true, if_false]
          constructor
          · intro hc; exact absurd hc (hnotin h)
          · intro hc; exact absurd hc (by simp)
        | true =>
          simp only [get_file_hash, hr, if_pos, List.mem_cons]
          constructor
          · rintro (heq' | hc)
            · rcases Prod.mk.injEq .. ▸ heq' with ⟨-, rfl⟩
              exact ⟨by simpa using hig, by simp [get_file_hash, hr]⟩
            · exact absurd hc (hnotin h)
          · rintro ⟨-, hfh⟩
            simp only [get_file_hash, hr, if_pos, Option.some.injEq] at hfh
            exact Or.inl (by rw [hfh])
    · have hne : q ≠ p := by
        intro hqp
        exact hnd.1 (hqp ▸ List.mem_map_of_mem Prod.fst hmem')
      rw [scan_events_cons]
      have hrec := ih p fd hnd.2 hmem' h
      by_cases hig' : should_ignore pats (renderPath q) (some fd'.content.length)
      · rwa [if_pos hig']
      · rw [if_neg hig']
        cases hgf : get_file_hash fd' with
        | none => exact hrec
        | some hv =>
          simp only [List.mem_cons]
          rw [← hrec]
          constructor
          · rintro (heq' | hc)
            · exact absurd (congrArg Prod.fst heq').symm hne
            · exact hc
          · exact Or.inr

theorem mem_scan_new_iff (pats : List String)
    (prior : List (List String × List Nat)) (t : FSTree) (p : List String) :
    p ∈ scan_new pats prior t ↔
      (∃ h, (p, h) ∈ scan_events pats (walkFiles pats [] t)) ∧
        lookupA prior p = none := by
  simp only [scan_new, List.mem_map, List.mem_filter, Option.isNone_iff_eq_none]
  constructor
  · rintro ⟨⟨q, h⟩, ⟨hm, hl⟩, rfl⟩
    exact ⟨⟨h, hm⟩, hl⟩
  · rintro ⟨⟨h, hm⟩, hl⟩
    exact ⟨(p, h), ⟨hm, hl⟩, rfl⟩

theorem mem_scan_modified_iff (pats : List String)
    (prior : List (List String × List Nat)) (t : FSTree) (p : List String) :
    p ∈ scan_modified pats prior t ↔
      ∃ h hp, (p, h) ∈ scan_events pats (walkFiles pats [] t) ∧
        lookupA prior p = some hp ∧ hp ≠ h := by
  simp only [scan_modified, List.mem_map, List.mem_filter]
  constructor
  · rintro ⟨⟨q, h⟩, ⟨hm, hl⟩, heq⟩
    subst heq
    rcases hlp : lookupA prior q with - | hp
    · rw [hlp] at hl; simp at hl
    · rw [hlp] at hl
      simp only [decide_eq_true_eq] at hl
      exact ⟨h, hp, hm, rfl, hl⟩
  · rintro ⟨h, hp, hm, hl, hne⟩
    exact ⟨(p, h), ⟨hm, by simp [hl, hne]⟩, rfl⟩

theorem scan_new_nodup (pats : List String)
    (prior : List (List String × List Nat)) (t : FSTree)
    (hnd : ((walkFiles pats [] t).map Prod.fst).Nodup) :
    (scan_new pats prior t).Nodup := by
  have h1 : (scan_new pats prior t).Sublist
      ((scan_events pats (walkFiles pats [] t)).map Prod.fst) := by
    unfold scan_new
    exact List.Sublist.map Prod.fst (List.filter_sublist _)
  exact ((h1.trans (scan_events_fst_sublist pats _)).nodup hnd)

theorem scan_modified_nodup (pats : List String)
    (prior : List (List String × List Nat)) (t : FSTree)
    (hnd : ((walkFiles pats [] t).map Prod.fst).Nodup) :
    (scan_modified pats prior t).Nodup := by
  have h1 : (scan_modified pats prior t).Sublist
      ((scan_events pats (walkFiles pats [] t)).map Prod.fst) := by
    unfold scan_modified
    exact List.Sublist.map Prod.fst (List.filter_sublist _)
  exact ((h1.trans (scan_events_fst_sublist pats _)).nodup hnd)

theorem scan_new_disjoint_modified (pats : List String)
    (prior : List (List String × List Nat)) (t : FSTree) :
    List.Disjoint (scan_new pats prior t) (scan_modified pats prior t) := by
  intro p hn hm
  rcases (mem_scan_new_iff pats prior t p).mp hn with ⟨-, hl⟩
  rcases (mem_scan_modified_iff pats prior t p).mp hm with ⟨-, hp, -, hl', -⟩
  rw [hl] at hl'
  exact Option.noConfusion hl'

mutual
/-- Every path enumerated by the pruned walk extends the running prefix by
a nonempty list of segments whose directory part (everything but the final
filename) consists of names the pruning admitted. -/
theorem walkFiles_shape (pats : List String) :
    ∀ (pre : List String) (t : FSTree) (p : List String) (fd : FileData),
      (p, fd) ∈ walkFiles pats pre t →
      ∃ rest, p = pre ++ rest ∧ rest ≠ [] ∧
        ∀ d ∈ rest.dropLast, should_ignore pats d none = false
  | pre, .node files dirs => by
    intro p fd hmem
    rw [walkFiles] at hmem
    rcases List.mem_append.mp hmem with hf | hd
    · rcases List.mem_map.mp hf with ⟨f, -, heq⟩
      have h1 : pre ++ [f.1] = p := congrArg Prod.fst heq
      exact ⟨[f.1], h1.symm, by simp, by simp⟩
    · exact walkForest_shape pats pre dirs p fd hd

/-- Forest version of `walkFiles_shape`. -/
theorem walkForest_shape (pats : List String) :
    ∀ (pre : List String) (f : FSForest) (p : List String) (fd : FileData),
      (p, fd) ∈ walkForest pats pre f →
      ∃ rest, p = pre ++ rest ∧ rest ≠ [] ∧
        ∀ d ∈ rest.dropLast, should_ignore pats d none = false
  | pre, .nil => by intro p fd hmem; rw [walkForest] at hmem; simp at hmem
  | pre, .cons name sub restF => by
    intro p fd hmem
    rw [walkForest] at hmem
    rcases List.mem_append.mp hmem with hs | hr
    · by_cases hig : should_ignore pats name none
      · rw [if_pos hig] at hs; simp at hs
      · rw [if_neg hig] at hs
        rcases walkFiles_shape pats (pre ++ [name]) sub p fd hs with
          ⟨rest', hp, hne, hdirs⟩
        refine ⟨name :: rest', by simpa using hp, by simp, ?_⟩
        cases rest' with
        | nil => exact absurd rfl hne
        | cons r rs =>
          intro d hd
          rw [List.dropLast_cons₂] at hd
          rcases List.mem_cons.mp hd with rfl | hd'
          · simpa using hig
          · exact hdirs d hd'
    · exact walkForest_shape pats pre restF p fd hr
end

/-! ### Helper lemmas: the transfer session -/

theorem storsOf_append (h h' : List FtpCmd) :
    storsOf (h ++ h') = storsOf h ++ storsOf h' := by
  simp [storsOf, List.filterMap_append]

theorem storsOf_cwd (h : List FtpCmd) (d : String) :
    storsOf (h ++ [.cwd d]) = storsOf h := by
  simp [storsOf_append, storsOf]

theorem storsOf_mkd (h : List FtpCmd) (d : String) :
    storsOf (h ++ [.mkd d]) = storsOf h := by
  simp [storsOf_append, storsOf]

theorem storsOf_stor (h : List FtpCmd) (n : String) :
    storsOf (h ++ [.stor n]) = storsOf h ++ [n] := by
  simp [storsOf_append, storsOf]

theorem crdLoop_stors (oracle : FtpOracle) :
    ∀ (ds : List String) (h : List FtpCmd),
      storsOf (crdLoop oracle h ds) = storsOf h := by
  intro ds
  induction ds with
  | nil => intro h; rfl
  | cons d rest ih =>
    intro h
    rw [crdLoop]
    by_cases h1 : oracle h (.cwd d)
    · simp only [runCmd, h1, if_pos]
      rw [ih, storsOf_cwd]
    · simp only [runCmd, h1, if_neg, Bool.false_eq_true, not_false_iff, if_false]
      by_cases h2 : oracle (h ++ [.cwd d]) (.mkd d)
      · simp only [h2, if_pos]
        rw [ih, storsOf_cwd, storsOf_mkd, storsOf_cwd]
      · simp only [h2, Bool.false_eq_true, if_false]
        rw [ih, storsOf_mkd, storsOf_cwd]

theorem create_remote_dirs_stors (oracle : FtpOracle) (basePath : String)
    (hist : List FtpCmd) (rp : String) :
    storsOf (create_remote_dirs oracle basePath hist rp).1 = storsOf hist := by
  rw [create_remote_dirs]
  by_cases h1 : oracle hist (.cwd (baseDirName basePath))
  · simp only [runCmd, h1, if_pos]
    rw [crdLoop_stors, storsOf_cwd]
  · simp only [runCmd, h1, Bool.false_eq_true, if_false]
    rw [storsOf_cwd]

theorem fb_provision_stors (oracle : FtpOracle) :
    ∀ (ds : List String) (h : List FtpCmd),
      storsOf (fb_provision oracle h ds).1 = storsOf h := by
  intro ds
  induction ds with
  | nil => intro h; rfl
  | cons d rest ih =>
    intro h
    rw [fb_provision]
    by_cases h1 : oracle h (.cwd d)
    · simp only [runCmd, h1, if_pos]
      rw [ih, storsOf_cwd]
    · simp only [runCmd, h1, Bool.false_eq_true, if_false]
      by_cases h2 : oracle (h ++ [.cwd d]) (.mkd d)
      · simp only [h2, Bool.not_true, Bool.false_eq_true, if_false]
        by_cases h3 : oracle (h ++ [.cwd d] ++ [.mkd d]) (.cwd d)
        · simp only [h3, if_pos]
          rw [ih, storsOf_cwd, storsOf_mkd, storsOf_cwd]
        · simp only [h3, Bool.false_eq_true, if_false]
          rw [storsOf_cwd, storsOf_mkd, storsOf_cwd]
      · simp only [h2, Bool.not_false, if_pos]
        rw [storsOf_mkd, storsOf_cwd]

theorem upload_primary_stors (oracle : FtpOracle) (basePath : String)
    (localReadOk : Bool) (hist : List FtpCmd) (rf0 : String) :
    ∃ b : Bool,
      storsOf (upload_primary oracle basePath localReadOk hist rf0).1 =
        storsOf hist ++
          (if b then [replaceChar '\\' '/' rf0] else []) ∧
      ((upload_primary oracle basePath localReadOk hist rf0).2 = true →
        b = true) := by
  rw [upload_primary]
  set rf := replaceChar '\\' '/' rf0 with hrf
  set r1 := create_remote_dirs oracle basePath hist rf with hr1
  by_cases h1 : r1.2
  · simp only [h1, Bool.not_true, Bool.false_eq_true, if_false]
    set r2 := runCmd oracle r1.1 (.cwd (baseDirName basePath)) with hr2
    by_cases h2 : r2.2
    · simp only [h2, Bool.not_true, Bool.false_eq_true, if_false]
      cases localReadOk with
      | false =>
        refine ⟨false, ?_, by simp⟩
        simp only [Bool.not_false, if_pos, if_false]
        rw [hr2]
        simp only [runCmd]
        rw [storsOf_cwd, hr1, create_remote_dirs_stors]
        simp
      | true =>
        refine ⟨true, ?_, fun _ => rfl⟩
        simp only [Bool.not_true, Bool.false_eq_true, if_false, if_pos]
        simp only [runCmd]
        rw [storsOf_stor, hr2]
        simp only [runCmd]
        rw [storsOf_cwd, hr1, create_remote_dirs_stors]
    · simp only [h2, Bool.not_eq_true', Bool.not_true]
      refine ⟨false, ?_, ?_⟩
      · have : (!r2.2) = true := by simp [Bool.eq_false_iff.mpr h2]
        simp only [this, if_pos, if_false]
        rw [hr2]
        simp only [runCmd]
        rw [storsOf_cwd, hr1, create_remote_dirs_stors]
        simp
      · intro hcon
        have : (!r2.2) = true := by simp [Bool.eq_false_iff.mpr h2]
        simp [this] at hcon
  · refine ⟨false, ?_, ?_⟩
    · have : (!r1.2) = true := by simp [Bool.eq_false_iff.mpr h1]
      simp only [this, if_pos, if_false]
      rw [hr1, create_remote_dirs_stors]
      simp
    · intro hcon
      have : (!r1.2) = true := by simp [Bool.eq_false_iff.mpr h1]
      simp [this] at hcon

theorem upload_fallback_stors (oracle : FtpOracle) (basePath : String)
    (localReadOk : Bool) (hist : List FtpCmd) (rf0 : String) :
    ∃ b : Bool,
      storsOf (upload_fallback oracle basePath localReadOk hist rf0).1 =
        storsOf hist ++
          (if b then [bare_filename (replaceChar '\\' '/' rf0)] else []) ∧
      ((upload_fallback oracle basePath localReadOk hist rf0).2 = true →
        b = true) := by
  rw [upload_fallback]
  set rf := replaceChar '\\' '/' rf0 with hrf
  set r1 := runCmd oracle hist (.cwd (baseDirName basePath)) with hr1
  by_cases h1 : r1.2
  · simp only [h1, Bool.not_true, Bool.false_eq_true, if_false]
    set fdirs := if 1 < (pathPieces rf).length
        then (pathPieces rf).dropLast else [] with hfd
    set r2 := fb_provision oracle r1.1 fdirs with hr2
    by_cases h2 : r2.2
    · simp only [h2, Bool.not_true, Bool.false_eq_true, if_false]
      cases localReadOk with
      | false =>
        refine ⟨false, ?_, by simp⟩
        simp only [Bool.not_false, if_pos, if_false]
        rw [hr2, fb_provision_stors, hr1]
        simp only [runCmd]
        rw [storsOf_cwd]
        simp
      | true =>
        refine ⟨true, ?_, fun _ => rfl⟩
        simp only [Bool.not_true, Bool.false_eq_true, if_false, if_pos]
        simp only [runCmd]
        rw [storsOf_stor, hr2, fb_provision_stors, hr1]
        simp only [runCmd]
        rw [storsOf_cwd]
    · refine ⟨false, ?_, ?_⟩
      · have hb : (!r2.2) = true := by simp [Bool.eq_false_iff.mpr h2]
        simp only [hb, if_pos, if_false]
        rw [hr2, fb_provision_stors, hr1]
        simp only [runCmd]
        rw [storsOf_cwd]
        simp
      · intro hcon
        have hb : (!r2.2) = true := by simp [Bool.eq_false_iff.mpr h2]
        simp [hb] at hcon
  · refine ⟨false, ?_, ?_⟩
    · have hb : (!r1.2) = true := by simp [Bool.eq_false_iff.mpr h1]
      simp only [hb, if_pos, if_false]
      rw [hr1]
      simp only [runCmd]
      rw [storsOf_cwd]
      simp
    · intro hcon
      have hb : (!r1.2) = true := by simp [Bool.eq_false_iff.mpr h1]
      simp [hb] at hcon

/-! ### Helper lemmas: the sync run -/

theorem sync_loop_spec (oracle : FtpOracle) (basePath : String)
    (readAt : List String → Bool) :
    ∀ (files : List (List String)) (h : List FtpCmd),
      (sync_loop oracle basePath readAt files h).2.2.2.map Prod.fst = files ∧
      (sync_loop oracle basePath readAt files h).2.2.1 =
        ((sync_loop oracle basePath readAt files h).2.2.2.filter
          (fun x => !x.2)).map Prod.fst ∧
      (sync_loop oracle basePath readAt files h).2.1 =
        ((sync_loop oracle basePath readAt files h).2.2.2.filter
          (fun x => x.2)).length ∧
      (sync_loop oracle basePath readAt files h).2.1 +
        (sync_loop oracle basePath readAt files h).2.2.1.length =
          files.length := by
  intro files
  induction files with
  | nil => intro h; simp [sync_loop]
  | cons f fs ih =>
    intro h
    rw [sync_loop]
    set r := upload_file oracle basePath (readAt f) h (renderPath f) with hr
    rcases ih r.1 with ⟨ih1, ih2, ih3, ih4⟩
    by_cases hok : r.2
    · simp only [hok, if_pos]
      refine ⟨by simp [ih1], by simpa using ih2, by simp [ih3], ?_⟩
      simp only [List.length_cons]
      omega
    · have hb : r.2 = false := Bool.eq_false_iff.mpr hok
      simp only [hb, Bool.false_eq_true, if_false]
      refine ⟨by simp [ih1], by simpa using ih2, by simpa using ih3, ?_⟩
      simp only [List.length_cons]
      omega

theorem sync_changes_ran_eq (pats : List String) (oracle : FtpOracle)
    (basePath : String) (prior : List (List String × List Nat))
    (t1 t2 : FSTree) (readAt : List String → Bool) (confirm connectOk : Bool)
    (hran : (sync_changes pats oracle basePath prior t1 t2 readAt
      confirm connectOk).ran = true) :
    sync_changes pats oracle basePath prior t1 t2 readAt confirm connectOk =
      ⟨(sync_loop oracle basePath readAt
          (scan_new pats prior t1 ++ scan_modified pats prior t1)
          (sync_base_setup oracle basePath []).1).2.1,
        (sync_loop oracle basePath readAt
          (scan_new pats prior t1 ++ scan_modified pats prior t1)
          (sync_base_setup oracle basePath []).1).2.2.1,
        (sync_loop oracle basePath readAt
          (scan_new pats prior t1 ++ scan_modified pats prior t1)
          (sync_base_setup oracle basePath []).1).2.2.2,
        if 0 < (sync_loop oracle basePath readAt
            (scan_new pats prior t1 ++ scan_modified pats prior t1)
            (sync_base_setup oracle basePath []).1).2.1 then
          scan_current pats t2
        else prior,
        (sync_loop oracle basePath readAt
            (scan_new pats prior t1 ++ scan_modified pats prior t1)
            (sync_base_setup oracle basePath []).1).2.1 ==
          (scan_new pats prior t1).length + (scan_modified pats prior t1).length,
        true,
        (sync_loop oracle basePath readAt
          (scan_new pats prior t1 ++ scan_modified pats prior t1)
          (sync_base_setup oracle basePath []).1).1⟩ := by
  simp only [sync_changes] at hran ⊢
  split_ifs at hran ⊢ <;> rfl

/-! ### Claim theorems -/

/-- C1: if at least one upload of a `sync_changes` run succeeded, the run
re-runs a full detection pass over the current local tree (`t2`) and
persists that entire resulting fingerprint map — including fresh
fingerprints of files whose upload failed, since the map is exactly
`scan_current` of the re-scan; if zero uploads succeeded (including every
early return), the persisted map is left unchanged. -/
theorem commit_policy_full_rescan (pats : List String) (oracle : FtpOracle)
    (basePath : String) (prior : List (List String × List Nat))
    (t1 t2 : FSTree) (readAt : List String → Bool) (confirm connectOk : Bool) :
    (sync_changes pats oracle basePath prior t1 t2 readAt confirm
        connectOk).file_hashes =
      if 0 < (sync_changes pats oracle basePath prior t1 t2 readAt confirm
          connectOk).success then
        scan_current pats t2
      else prior := by
  simp only [sync_changes]
  split_ifs <;> first | rfl | simp_all

/-- C7: when establishing the transfer session fails (`connect_ftp`
returns `None`), `sync_changes` aborts at once: no upload is attempted (no
per-file result, no FTP command issued), the counter stays zero, and the
persisted fingerprint map is untouched. -/
theorem connect_failure_aborts (pats : List String) (oracle : FtpOracle)
    (basePath : String) (prior : List (List String × List Nat))
    (t1 t2 : FSTree) (readAt : List String → Bool) (confirm connectOk : Bool)
    (hconn : connectOk = false) :
    (sync_changes pats oracle basePath prior t1 t2 readAt confirm
        connectOk).results = [] ∧
    (sync_changes pats oracle basePath prior t1 t2 readAt confirm
        connectOk).success = 0 ∧
    (sync_changes pats oracle basePath prior t1 t2 readAt confirm
        connectOk).file_hashes = prior ∧
    (sync_changes pats oracle basePath prior t1 t2 readAt confirm
        connectOk).trace = [] := by
  subst hconn
  simp only [sync_changes]
  split_ifs <;> simp_all

/-- Witness for C7 at a concrete configuration. -/
theorem connect_failure_aborts_witness :
    (sync_changes ignore_patterns (fun _ _ => true) "" [(["x"], [0])]
        (.node [("a", ⟨[1], 0, true⟩)] .nil)
        (.node [("a", ⟨[1], 0, true⟩)] .nil)
        (fun _ => true) true false).file_hashes = [(["x"], [0])] :=
  (connect_failure_aborts ignore_patterns (fun _ _ => true) "" [(["x"], [0])]
    (.node [("a", ⟨[1], 0, true⟩)] .nil)
    (.node [("a", ⟨[1], 0, true⟩)] .nil)
    (fun _ => true) true false rfl).2.2.1

/-- C3: in a run that reached the upload loop, every changed file is
attempted; the success counter plus the number of failed files equals the
number of attempts, the failed list is exactly the attempted paths whose
upload returned `False` (the run itself never raises for them — the model
is total), the success counter counts the uploads that returned `True`,
and the all-files-uploaded message is not shown when something failed. -/
theorem partial_failure_accounting (pats : List String) (oracle : FtpOracle)
    (basePath : String) (prior : List (List String × List Nat))
    (t1 t2 : FSTree) (readAt : List String → Bool) (confirm connectOk : Bool)
    (hran : (sync_changes pats oracle basePath prior t1 t2 readAt confirm
      connectOk).ran = true) :
    (sync_changes pats oracle basePath prior t1 t2 readAt confirm
        connectOk).results.map Prod.fst =
      scan_new pats prior t1 ++ scan_modified pats prior t1 ∧
    (sync_changes pats oracle basePath prior t1 t2 readAt confirm
        connectOk).success +
      (sync_changes pats oracle basePath prior t1 t2 readAt confirm
        connectOk).failed_files.length =
      (sync_changes pats oracle basePath prior t1 t2 readAt confirm
        connectOk).results.length ∧
    (sync_changes pats oracle basePath prior t1 t2 readAt confirm
        connectOk).failed_files =
      ((sync_changes pats oracle basePath prior t1 t2 readAt confirm
        connectOk).results.filter (fun x => !x.2)).map Prod.fst ∧
    (sync_changes pats oracle basePath prior t1 t2 readAt confirm
        connectOk).success =
      ((sync_changes pats oracle basePath prior t1 t2 readAt confirm
        connectOk).results.filter (fun x => x.2)).length ∧
    ((sync_changes pats oracle basePath prior t1 t2 readAt confirm
        connectOk).failed_files ≠ [] →
      (sync_changes pats oracle basePath prior t1 t2 readAt confirm
        connectOk).claimed_full = false) := by
  rw [sync_changes_ran_eq pats oracle basePath prior t1 t2 readAt confirm
    connectOk hran]
  rcases sync_loop_spec oracle basePath readAt
    (scan_new pats prior t1 ++ scan_modified pats prior t1)
    (sync_base_setup oracle basePath []).1 with ⟨s1, s2, s3, s4⟩
  have hlenr := congrArg List.length s1
  rw [List.length_map] at hlenr
  refine ⟨s1, by rw [hlenr]; exact s4, s2, s3, ?_⟩
  intro hfl
  have hpos : 0 < (sync_loop oracle basePath readAt
      (scan_new pats prior t1 ++ scan_modified pats prior t1)
      (sync_base_setup oracle basePath []).1).2.2.1.length :=
    List.length_pos.mpr hfl
  have htot : (scan_new pats prior t1 ++ scan_modified pats prior t1).length =
      (scan_new pats prior t1).length + (scan_modified pats prior t1).length :=
    List.length_append _ _
  cases hb : (sync_loop oracle basePath readAt
      (scan_new pats prior t1 ++ scan_modified pats prior t1)
      (sync_base_setup oracle basePath []).1).2.1 ==
      (scan_new pats prior t1).length + (scan_modified pats prior t1).length with
  | false => rfl
  | true =>
    exfalso
    simp only [beq_iff_eq] at hb
    omega

/-- Witness for C3: a run over one new file with an always-succeeding
server. -/
theorem partial_failure_accounting_witness :
    (sync_changes ignore_patterns (fun _ _ => true) "" []
        (.node [("a", ⟨[1], 0, true⟩)] .nil)
        (.node [("a", ⟨[1], 0, true⟩)] .nil)
        (fun _ => true) true true).ran = true ∧
    (sync_changes ignore_patterns (fun _ _ => true) "" []
        (.node [("a", ⟨[1], 0, true⟩)] .nil)
        (.node [("a", ⟨[1], 0, true⟩)] .nil)
        (fun _ => true) true true).success +
      (sync_changes ignore_patterns (fun _ _ => true) "" []
        (.node [("a", ⟨[1], 0, true⟩)] .nil)
        (.node [("a", ⟨[1], 0, true⟩)] .nil)
        (fun _ => true) true true).failed_files.length =
      (sync_changes ignore_patterns (fun _ _ => true) "" []
        (.node [("a", ⟨[1], 0, true⟩)] .nil)
        (.node [("a", ⟨[1], 0, true⟩)] .nil)
        (fun _ => true) true true).results.length :=
  ⟨by decide,
    (partial_failure_accounting ignore_patterns (fun _ _ => true) "" []
      (.node [("a", ⟨[1], 0, true⟩)] .nil)
      (.node [("a", ⟨[1], 0, true⟩)] .nil)
      (fun _ => true) true true (by decide)).2.1⟩

/-- C8 (counterexample): uploads do *not* occur in the order the paths
were enumerated during the detection walk.  With prior fingerprints
marking `a` as modified, the walk enumerates `a` before `b`, yet the run
attempts `b` (new) before `a` (modified), because `sync_changes` uploads
`changes['new'] + changes['modified']`. -/
theorem upload_order_counterexample :
    (sync_changes ignore_patterns (fun _ _ => true) "" [(["a"], [9])]
        (.node [("a", ⟨[1], 0, true⟩), ("b", ⟨[2], 0, true⟩)] .nil)
        (.node [("a", ⟨[1], 0, true⟩), ("b", ⟨[2], 0, true⟩)] .nil)
        (fun _ => true) true true).results.map Prod.fst = [["b"], ["a"]] ∧
    (walkFiles ignore_patterns []
        (.node [("a", ⟨[1], 0, true⟩), ("b", ⟨[2], 0, true⟩)] .nil)).map
      Prod.fst = [["a"], ["b"]] := by
  decide

/-- C8 (amended): in a run that reached the upload loop, every path of
`newPaths ∪ modifiedPaths` is attempted exactly once — the attempted
sequence is exactly `newPaths ++ modifiedPaths` and is duplicate-free
(walk paths assumed distinct, as they are on a real filesystem): all new
files first, in walk order, then all modified files, in walk order. -/
theorem upload_order_amended (pats : List String) (oracle : FtpOracle)
    (basePath : String) (prior : List (List String × List Nat))
    (t1 t2 : FSTree) (readAt : List String → Bool) (confirm connectOk : Bool)
    (hran : (sync_changes pats oracle basePath prior t1 t2 readAt confirm
      connectOk).ran = true)
    (hnd : ((walkFiles pats [] t1).map Prod.fst).Nodup) :
    (sync_changes pats oracle basePath prior t1 t2 readAt confirm
        connectOk).results.map Prod.fst =
      scan_new pats prior t1 ++ scan_modified pats prior t1 ∧
    ((sync_changes pats oracle basePath prior t1 t2 readAt confirm
        connectOk).results.map Prod.fst).Nodup := by
  rw [sync_changes_ran_eq pats oracle basePath prior t1 t2 readAt confirm
    connectOk hran]
  have s1 := (sync_loop_spec oracle basePath readAt
    (scan_new pats prior t1 ++ scan_modified pats prior t1)
    (sync_base_setup oracle basePath []).1).1
  refine ⟨s1, ?_⟩
  rw [s1]
  exact (scan_new_nodup pats prior t1 hnd).append
    (scan_modified_nodup pats prior t1 hnd)
    (scan_new_disjoint_modified pats prior t1)

/-- Witness for the amended C8 at a concrete run with one new and one
modified file. -/
theorem upload_order_amended_witness :
    (sync_changes ignore_patterns (fun _ _ => true) "" [(["c"], [9])]
        (.node [("c", ⟨[1], 0, true⟩), ("d", ⟨[2], 0, true⟩)] .nil)
        (.node [("c", ⟨[1], 0, true⟩), ("d", ⟨[2], 0, true⟩)] .nil)
        (fun _ => true) true true).results.map Prod.fst =
      scan_new ignore_patterns [(["c"], [9])]
          (.node [("c", ⟨[1], 0, true⟩), ("d", ⟨[2], 0, true⟩)] .nil) ++
        scan_modified ignore_patterns [(["c"], [9])]
          (.node [("c", ⟨[1], 0, true⟩), ("d", ⟨[2], 0, true⟩)] .nil) :=
  (upload_order_amended ignore_patterns (fun _ _ => true) "" [(["c"], [9])]
    (.node [("c", ⟨[1], 0, true⟩), ("d", ⟨[2], 0, true⟩)] .nil)
    (.node [("c", ⟨[1], 0, true⟩), ("d", ⟨[2], 0, true⟩)] .nil)
    (fun _ => true) true true (by decide) (by decide)).1

/-- C10: for every scan (over distinct walk paths, as on a real
filesystem), `newPaths` and `modifiedPaths` are disjoint and
duplicate-free, every path in either list is a key of the freshly built
`currentFingerprints` bound to the fingerprint computed for it in this
scan, and the total change count is `|newPaths| + |modifiedPaths|`. -/
theorem changeset_wellformed (pats : List String)
    (prior : List (List String × List Nat)) (t : FSTree)
    (hnd : ((walkFiles pats [] t).map Prod.fst).Nodup) :
    List.Disjoint (scan_new pats prior t) (scan_modified pats prior t) ∧
    (scan_new pats prior t ++ scan_modified pats prior t).Nodup ∧
    (∀ p, p ∈ scan_new pats prior t ++ scan_modified pats prior t →
      ∃ fd h, (p, fd) ∈ walkFiles pats [] t ∧ get_file_hash fd = some h ∧
        lookupA (scan_current pats t) p = some h) ∧
    (scan_new pats prior t ++ scan_modified pats prior t).length =
      (scan_new pats prior t).length + (scan_modified pats prior t).length := by
  have hndE : ((scan_events pats (walkFiles pats [] t)).map Prod.fst).Nodup :=
    (scan_events_fst_sublist pats _).nodup hnd
  refine ⟨scan_new_disjoint_modified pats prior t,
    (scan_new_nodup pats prior t hnd).append
      (scan_modified_nodup pats prior t hnd)
      (scan_new_disjoint_modified pats prior t),
    ?_, List.length_append _ _⟩
  intro p hp
  have hev : ∃ h, (p, h) ∈ scan_events pats (walkFiles pats [] t) := by
    rcases List.mem_append.mp hp with hn | hm
    · rcases (mem_scan_new_iff pats prior t p).mp hn with ⟨⟨h, hm'⟩, -⟩
      exact ⟨h, hm'⟩
    · rcases (mem_scan_modified_iff pats prior t p).mp hm with ⟨h, -, hm', -, -⟩
      exact ⟨h, hm'⟩
  rcases hev with ⟨h, hm'⟩
  rcases mem_scan_events_elim pats _ p h hm' with ⟨fd, hw, -, hgf⟩
  exact ⟨fd, h, hw, hgf,
    lookupA_foldl_dinsert_mem _ p h hndE hm' []⟩

/-- Witness for C10 at a two-file scan. -/
theorem changeset_wellformed_witness :
    List.Disjoint
      (scan_new ignore_patterns [(["e"], [9])]
        (.node [("e", ⟨[1], 0, true⟩), ("f", ⟨[2], 0, true⟩)] .nil))
      (scan_modified ignore_patterns [(["e"], [9])]
        (.node [("e", ⟨[1], 0, true⟩), ("f", ⟨[2], 0, true⟩)] .nil)) :=
  (changeset_wellformed ignore_patterns [(["e"], [9])]
    (.node [("e", ⟨[1], 0, true⟩), ("f", ⟨[2], 0, true⟩)] .nil)
    (by decide)).1

/-- C5: classification of one scanned, non-ignored file (walk paths
distinct, as on a real filesystem): absent from the prior map → in
`newPaths`; present under a different fingerprint → in `modifiedPaths`;
present under an equal fingerprint → in neither; unreadable → absent from
`currentFingerprints` and from both change lists, the rest of the scan
being unaffected. -/
theorem scan_classification (pats : List String)
    (prior : List (List String × List Nat)) (t : FSTree)
    (p : List String) (fd : FileData)
    (hmem : (p, fd) ∈ walkFiles pats [] t)
    (hnd : ((walkFiles pats [] t).map Prod.fst).Nodup)
    (hig : should_ignore pats (renderPath p) (some fd.content.length) = false) :
    (fd.readOk = true → lookupA prior p = none → p ∈ scan_new pats prior t) ∧
    (∀ hp, fd.readOk = true → lookupA prior p = some hp →
      hp ≠ get_file_hash_input fd.content fd.mtime →
      p ∈ scan_modified pats prior t) ∧
    (fd.readOk = true →
      lookupA prior p = some (get_file_hash_input fd.content fd.mtime) →
      p ∉ scan_new pats prior t ∧ p ∉ scan_modified pats prior t) ∧
    (fd.readOk = false →
      lookupA (scan_current pats t) p = none ∧
      p ∉ scan_new pats prior t ∧ p ∉ scan_modified pats prior t) := by
  have hiff := scan_events_mem_iff_of_nodup pats (walkFiles pats [] t) p fd
    hnd hmem
  refine ⟨?_, ?_, ?_, ?_⟩
  · intro hr hl
    exact (mem_scan_new_iff pats prior t p).mpr
      ⟨⟨_, mem_scan_events_intro pats _ p fd hmem hig hr⟩, hl⟩
  · intro hp hr hl hne
    exact (mem_scan_modified_iff pats prior t p).mpr
      ⟨_, hp, mem_scan_events_intro pats _ p fd hmem hig hr, hl, hne⟩
  · intro hr hl
    constructor
    · intro hc
      rcases (mem_scan_new_iff pats prior t p).mp hc with ⟨-, hl'⟩
      rw [hl] at hl'
      exact Option.noConfusion hl'
    · intro hc
      rcases (mem_scan_modified_iff pats prior t p).mp hc with
        ⟨h, hp, hmemE, hl', hne⟩
      rw [hl] at hl'
      have hpe : get_file_hash_input fd.content fd.mtime = hp :=
        Option.some.inj hl'
      have hgf := ((hiff h).mp hmemE).2
      rw [get_file_hash, if_pos hr] at hgf
      exact hne (hpe ▸ (Option.some.inj hgf) ▸ rfl)
  · intro hr
    have hnotin : ∀ h, (p, h) ∉ scan_events pats (walkFiles pats [] t) := by
      intro h hc
      have hgf := ((hiff h).mp hc).2
      rw [get_file_hash, hr] at hgf
      simp at hgf
    have hpf : p ∉ (scan_events pats (walkFiles pats [] t)).map Prod.fst := by
      intro hc
      rcases List.mem_map.mp hc with ⟨⟨q, h⟩, hm, heq⟩
      exact hnotin h (by rwa [show q = p from heq] at hm)
    refine ⟨?_, ?_, ?_⟩
    · rw [scan_current, lookupA_foldl_dinsert_not_mem _ p hpf []]
      rfl
    · intro hc
      rcases (mem_scan_new_iff pats prior t p).mp hc with ⟨⟨h, hm'⟩, -⟩
      exact hnotin h hm'
    · intro hc
      rcases (mem_scan_modified_iff pats prior t p).mp hc with
        ⟨h, -, hm', -, -⟩
      exact hnotin h hm'

/-- Witness for C5: a fresh file lands in `newPaths`. -/
theorem scan_classification_witness :
    ["g"] ∈ scan_new ignore_patterns []
      (.node [("g", ⟨[1], 0, true⟩)] .nil) :=
  ((scan_classification ignore_patterns []
    (.node [("g", ⟨[1], 0, true⟩)] .nil) ["g"] ⟨[1], 0, true⟩
    (by decide) (by decide) (by decide)).1) rfl rfl

theorem scan_current_mem_walk (pats : List String) (t : FSTree)
    (p : List String) (h : List Nat)
    (hl : lookupA (scan_current pats t) p = some h) :
    ∃ hv fd, (p, hv) ∈ scan_events pats (walkFiles pats [] t) ∧
      (p, fd) ∈ walkFiles pats [] t ∧
      should_ignore pats (renderPath p) (some fd.content.length) = false ∧
      get_file_hash fd = some hv := by
  by_cases hpf : p ∈ (scan_events pats (walkFiles pats [] t)).map Prod.fst
  · rcases List.mem_map.mp hpf with ⟨⟨q, hv⟩, hm, heq⟩
    rcases mem_scan_events_elim pats _ q hv hm with ⟨fd, hw, hig, hgf⟩
    rw [show q = p from heq] at hm hw hig
    exact ⟨hv, fd, hm, hw, hig, hgf⟩
  · rw [scan_current, lookupA_foldl_dinsert_not_mem _ p hpf []] at hl
    exact Option.noConfusion hl

/-- C6: `should_ignore` is true exactly when some part of the
slash-split (backslash-normalized) path has an ignore pattern as a
substring — for a `*`-pattern, when some part ends with the pattern's
suffix — or when the stat result exceeds 100 MiB; and every path that
reaches a ChangeSet or `currentFingerprints` was scanned non-ignored with
every one of its parent directory names admitted by the pruning test. -/
theorem ignore_rules_and_pruning (pats : List String) (fp : String)
    (sz : Option Nat) (prior : List (List String × List Nat)) (t : FSTree) :
    (should_ignore pats fp sz = true ↔
      ((∃ pat ∈ pats, ∃ part ∈ splitChar '/' (replaceChar '\\' '/' fp).data,
          (if startsWithChars ['*'] pat.data then
            ∃ s, part = s ++ pat.data.drop 1
          else ∃ s t', part = s ++ pat.data ++ t')) ∨
        (∃ s, sz = some s ∧ 100 * 1024 * 1024 < s))) ∧
    (∀ p, (p ∈ scan_new pats prior t ∨ p ∈ scan_modified pats prior t ∨
        (∃ h, lookupA (scan_current pats t) p = some h)) →
      (∃ fd, (p, fd) ∈ walkFiles pats [] t ∧
        should_ignore pats (renderPath p) (some fd.content.length) = false) ∧
      ∀ d ∈ p.dropLast, should_ignore pats d none = false) := by
  constructor
  · simp only [should_ignore, patternHit, Bool.or_eq_true, List.any_eq_true]
    apply or_congr
    · apply exists_congr
      intro pat
      apply and_congr_right
      intro _
      apply exists_congr
      intro part
      apply and_congr_right
      intro _
      by_cases hsw : startsWithChars ['*'] pat.data = true
      · rw [if_pos hsw, if_pos hsw]
        exact endsWithChars_iff _ _
      · rw [if_neg hsw, if_neg hsw]
        exact containsSub_iff _ _
    · cases sz with
      | none => simp
      | some s0 => simp
  · intro p hp
    have hev : ∃ h, (p, h) ∈ scan_events pats (walkFiles pats [] t) := by
      rcases hp with hn | hm | ⟨h, hl⟩
      · rcases (mem_scan_new_iff pats prior t p).mp hn with ⟨⟨h, hm'⟩, -⟩
        exact ⟨h, hm'⟩
      · rcases (mem_scan_modified_iff pats prior t p).mp hm with
          ⟨h, -, hm', -, -⟩
        exact ⟨h, hm'⟩
      · rcases scan_current_mem_walk pats t p h hl with ⟨hv, -, hm', -, -, -⟩
        exact ⟨hv, hm'⟩
    rcases hev with ⟨h, hm'⟩
    rcases mem_scan_events_elim pats _ p h hm' with ⟨fd, hw, hig, -⟩
    refine ⟨⟨fd, hw, hig⟩, ?_⟩
    rcases walkFiles_shape pats [] t p fd hw with ⟨rest, hpr, -, hdirs⟩
    rw [List.nil_append] at hpr
    subst hpr
    exact hdirs

/-- Witness for C6: a file inside a `node_modules` directory segment is
ignored by the substring rule. -/
theorem ignore_rules_and_pruning_witness :
    should_ignore ignore_patterns "x/node_modules/y.txt" none = true :=
  (ignore_rules_and_pruning ignore_patterns "x/node_modules/y.txt" none []
      (.node [] .nil)).1.mpr
    (Or.inl ⟨"node_modules", by decide, "node_modules".data, by decide,
      by rw [if_neg (by decide)]; exact ⟨[], [], by decide⟩⟩)

/-- C9 (counterexample): `scan_folder` keys are *not* always free of
backslashes: a POSIX file whose own name contains a literal backslash is
stored under an un-normalized key containing that backslash (the default
rules do not ignore it, and the scan never rewrites keys). -/
theorem fingerprint_keys_backslash_cex :
    (scan_current ignore_patterns
        (.node [("a\\b", ⟨[1], 0, true⟩)] .nil)).map
      (fun e => renderPath e.1) = ["a\\b"] ∧
    '\\' ∈ "a\\b".data := by
  decide

/-- C9 (amended): every key of `currentFingerprints` is the walk's
relative path joined with forward slashes, so whenever no file or
directory name itself contains a backslash — the only realizable POSIX
exception — no persisted key contains a backslash character. -/
theorem fingerprint_keys_no_backslash (pats : List String) (t : FSTree)
    (hnames : ∀ p fd, (p, fd) ∈ walkFiles pats [] t →
      ∀ seg ∈ p, '\\' ∉ seg.data) :
    ∀ p h, lookupA (scan_current pats t) p = some h →
      '\\' ∉ (renderPath p).data := by
  intro p h hl hc
  rcases scan_current_mem_walk pats t p h hl with ⟨-, fd, -, hw, -, -⟩
  rcases mem_joinSegs (p.map String.data) hc with h1 | ⟨l, hlm, hcl⟩
  · exact absurd h1 (by decide)
  · rcases List.mem_map.mp hlm with ⟨seg, hsegm, rfl⟩
    exact hnames p fd hw seg hsegm hcl

/-- Witness for the amended C9 at a one-file tree with a clean name. -/
theorem fingerprint_keys_no_backslash_witness :
    '\\' ∉ (renderPath ["h.txt"]).data :=
  fingerprint_keys_no_backslash ignore_patterns
    (.node [("h.txt", ⟨[3], 7, true⟩)] .nil)
    (by
      intro p fd hmem seg hseg
      rw [show walkFiles ignore_patterns []
          (FSTree.node [("h.txt", ⟨[3], 7, true⟩)] FSForest.nil) =
          [(["h.txt"], ⟨[3], 7, true⟩)] from by decide] at hmem
      have hp : p = ["h.txt"] :=
        congrArg Prod.fst (List.mem_singleton.mp hmem)
      subst hp
      have hseg' : seg = "h.txt" := by simpa using hseg
      subst hseg'
      decide) ["h.txt"] (get_file_hash_input [3] 7) (by decide)

theorem drop_append_len {α : Type} (l₁ l₂ : List α) (i : Nat) :
    (l₁ ++ l₂).drop (l₁.length + i) = l₂.drop i := by
  rw [← List.drop_drop, List.drop_left]

/-- C4: the fingerprint input is exactly the first MiB, then the last MiB
only when the size exceeds 2 MiB, then the decimal size, then the decimal
mtime; hence for a file over 2 MiB, an interior-only change preserving the
first MiB, last MiB, size and mtime yields an identical fingerprint, and a
rescan against the old fingerprint classifies the file neither as new nor
as modified. -/
theorem fingerprint_sampling_gap (c1 c2 : List Nat) (m : Nat) (name : String)
    (pats : List String)
    (hlen : c1.length = c2.length)
    (hbig : 2 * 1024 * 1024 < c1.length)
    (hfirst : c1.take (1024 * 1024) = c2.take (1024 * 1024))
    (hlast : c1.drop (c1.length - 1024 * 1024) =
      c2.drop (c2.length - 1024 * 1024))
    (hig : should_ignore pats (renderPath [name]) (some c2.length) = false) :
    (∀ (c : List Nat) (mt : Nat),
      get_file_hash_input c mt =
        c.take (1024 * 1024) ++
          (if 2 * 1024 * 1024 < c.length then c.drop (c.length - 1024 * 1024)
            else []) ++ decimalBytes c.length ++ decimalBytes mt) ∧
    get_file_hash_input c1 m = get_file_hash_input c2 m ∧
    scan_new pats [([name], get_file_hash_input c1 m)]
      (.node [(name, ⟨c2, m, true⟩)] .nil) = [] ∧
    scan_modified pats [([name], get_file_hash_input c1 m)]
      (.node [(name, ⟨c2, m, true⟩)] .nil) = [] := by
  have hb2 : 2 * 1024 * 1024 < c2.length := hlen ▸ hbig
  have hfp : get_file_hash_input c1 m = get_file_hash_input c2 m := by
    simp only [get_file_hash_input]
    rw [if_pos hbig, if_pos hb2, hfirst, hlast, hlen]
  have hwalk : walkFiles pats []
      (.node [(name, (⟨c2, m, true⟩ : FileData))] .nil) =
      [([name], ⟨c2, m, true⟩)] := by
    rw [walkFiles, walkForest]
    simp
  have hig' : should_ignore pats (renderPath [name])
      (some ((⟨c2, m, true⟩ : FileData)).content.length) = false := hig
  have hev : scan_events pats [([name], (⟨c2, m, true⟩ : FileData))] =
      [([name], get_file_hash_input c2 m)] := by
    rw [scan_events_cons]
    simp only [hig', Bool.false_eq_true, if_false, get_file_hash]
    simp [scan_events]
  refine ⟨fun c mt => rfl, hfp, ?_, ?_⟩
  · rw [scan_new, hwalk, hev]
    simp [lookupA]
  · rw [scan_modified, hwalk, hev]
    simp [lookupA, hfp]

/-- Witness for C4: a (2 MiB + 1)-byte file whose single middle byte is
changed in place keeps the same fingerprint and is not re-flagged. -/
theorem fingerprint_sampling_gap_witness :
    scan_modified ignore_patterns
        [(["big.bin"],
          get_file_hash_input (List.replicate (2 * 1024 * 1024 + 1) 0) 5)]
        (.node [("big.bin",
          ⟨List.replicate (1024 * 1024) 0 ++ 7 :: List.replicate (1024 * 1024) 0,
            5, true⟩)] .nil) = [] := by
  have a1 : (List.replicate (2 * 1024 * 1024 + 1) (0 : Nat)).length =
      2 * 1024 * 1024 + 1 := by rw [List.length_replicate]
  have a2 : (List.replicate (1024 * 1024) (0 : Nat)).length =
      1024 * 1024 := by rw [List.length_replicate]
  have a3 : (List.replicate (1024 * 1024) (0 : Nat) ++
      7 :: List.replicate (1024 * 1024) 0).length =
      (List.replicate (1024 * 1024) (0 : Nat)).length +
        ((List.replicate (1024 * 1024) (0 : Nat)).length + 1) := by
    rw [List.length_append, List.length_cons]
  have hlen : (List.replicate (2 * 1024 * 1024 + 1) (0 : Nat)).length =
      (List.replicate (1024 * 1024) (0 : Nat) ++
        7 :: List.replicate (1024 * 1024) 0).length := by omega
  have hbig : 2 * 1024 * 1024 <
      (List.replicate (2 * 1024 * 1024 + 1) (0 : Nat)).length := by omega
  have hfirst : (List.replicate (2 * 1024 * 1024 + 1) (0 : Nat)).take
      (1024 * 1024) =
      (List.replicate (1024 * 1024) (0 : Nat) ++
        7 :: List.replicate (1024 * 1024) 0).take (1024 * 1024) := by
    rw [List.take_replicate, List.take_left' a2]
    congr 1
  have hlast : (List.replicate (2 * 1024 * 1024 + 1) (0 : Nat)).drop
      ((List.replicate (2 * 1024 * 1024 + 1) (0 : Nat)).length -
        1024 * 1024) =
      (List.replicate (1024 * 1024) (0 : Nat) ++
        7 :: List.replicate (1024 * 1024) 0).drop
        ((List.replicate (1024 * 1024) (0 : Nat) ++
          7 :: List.replicate (1024 * 1024) 0).length - 1024 * 1024) := by
    have e1 : (List.replicate (2 * 1024 * 1024 + 1) (0 : Nat)).length -
        1024 * 1024 = 1024 * 1024 + 1 := by omega
    have e2 : (List.replicate (1024 * 1024) (0 : Nat) ++
        7 :: List.replicate (1024 * 1024) 0).length - 1024 * 1024 =
        1024 * 1024 + 1 := by omega
    have e5 := drop_append_len (List.replicate (1024 * 1024) (0 : Nat))
      (7 :: List.replicate (1024 * 1024) 0) 1
    rw [a2] at e5
    rw [e1, e2, List.drop_replicate, e5]
    rfl
  have hig : should_ignore ignore_patterns (renderPath ["big.bin"])
      (some (List.replicate (1024 * 1024) (0 : Nat) ++
        7 :: List.replicate (1024 * 1024) 0).length) = false := by
    have hp : patternHit ignore_patterns (renderPath ["big.bin"]) = false := by
      decide
    rw [should_ignore, hp, Bool.false_or, a3, a2]
    exact decide_eq_false (by omega)
  exact (fingerprint_sampling_gap (List.replicate (2 * 1024 * 1024 + 1) 0)
    (List.replicate (1024 * 1024) 0 ++ 7 :: List.replicate (1024 * 1024) 0)
    5 "big.bin" ignore_patterns hlen hbig hfirst hlast hig).2.2.2

/-- C2: when the primary attempt of `upload_file` (provision, return to
base, `STOR` at the full relative path) fails for any reason, exactly one
fallback attempt runs from the failed state: it re-derives the segments
from the remote path, re-provisions them (`cwd`, and `mkd` + `cwd` on
failure), issues at most one further `STOR`, and that store — when
reached — uses the bare filename; success of the whole call implies that
store was issued, and when the fallback fails the call still returns
`false` (the model is total: every exception path of the source is caught
and mapped to the `false` verdict). -/
theorem upload_fallback_policy (oracle : FtpOracle) (basePath : String)
    (localReadOk : Bool) (hist : List FtpCmd) (rf0 : String)
    (hfail : (upload_primary oracle basePath localReadOk hist rf0).2 = false) :
    upload_file oracle basePath localReadOk hist rf0 =
      upload_fallback oracle basePath localReadOk
        (upload_primary oracle basePath localReadOk hist rf0).1 rf0 ∧
    (∃ b : Bool,
      storsOf (upload_file oracle basePath localReadOk hist rf0).1 =
        storsOf (upload_primary oracle basePath localReadOk hist rf0).1 ++
          (if b then [bare_filename (replaceChar '\\' '/' rf0)] else []) ∧
      ((upload_file oracle basePath localReadOk hist rf0).2 = true →
        b = true)) ∧
    (∃ b0 : Bool,
      storsOf (upload_primary oracle basePath localReadOk hist rf0).1 =
        storsOf hist ++ (if b0 then [replaceChar '\\' '/' rf0] else [])) := by
  have h1 : upload_file oracle basePath localReadOk hist rf0 =
      upload_fallback oracle basePath localReadOk
        (upload_primary oracle basePath localReadOk hist rf0).1 rf0 := by
    simp only [upload_file, hfail, Bool.false_eq_true, if_false]
  refine ⟨h1, ?_, ?_⟩
  · rw [h1]
    exact upload_fallback_stors oracle basePath localReadOk _ rf0
  · rcases upload_primary_stors oracle basePath localReadOk hist rf0 with
      ⟨b0, hb, -⟩
    exact ⟨b0, hb⟩

/-- Witness for C2: against a server refusing every command, the primary
attempt fails and `upload_file` runs exactly the fallback. -/
theorem upload_fallback_policy_witness :
    (upload_primary (fun _ _ => false) "" true [] "a/b.txt").2 = false ∧
    upload_file (fun _ _ => false) "" true [] "a/b.txt" =
      upload_fallback (fun _ _ => false) "" true
        (upload_primary (fun _ _ => false) "" true [] "a/b.txt").1 "a/b.txt" :=
  ⟨by decide,
    (upload_fallback_policy (fun _ _ => false) "" true [] "a/b.txt"
      (by decide)).1⟩
